import Mathlib

/-!
Verification of the partsinstall naming / ordering / combination logic.

The Rust source (src/lib.rs, src/main.rs, src/steps.rs) is shallowly embedded
below.  Paths are modelled by their file-name component (a `String`); the
file system is a partial map from file names to byte lists; Rust panics
(`expect` / `panic!`) are modelled as `Option.none` or a `fatal` outcome and
`process::exit` as an explicit outcome.
-/

namespace Partsinstall

/-- Splits a character list at its last '.' character, returning the part
before and the part after (neither containing that dot); none when no dot
occurs.  This is the primitive underlying Rust's `Path::extension` /
`Path::file_stem`, which split a file name at its last '.'. -/
def splitLastDot : List Char → Option (List Char × List Char)
  | [] => none
  | c :: rest =>
    match splitLastDot rest with
    | some (s, e) => some (c :: s, e)
    | none => if c = '.' then some ([], rest) else none

/-- Model of Rust `Path::file_stem` applied to a file name: the portion
before the last '.', or the whole name when there is no dot or the only
dot is leading (hidden files such as ".gitignore" keep their full name). -/
def fileStem (f : String) : String :=
  match splitLastDot f.data with
  | some (s, _) => if s.isEmpty then f else String.mk s
  | none => f

/-- Model of Rust `Path::extension` applied to a file name: the portion
after the last '.', or none when there is no dot or the only dot is
leading. -/
def extension (f : String) : Option String :=
  match splitLastDot f.data with
  | some (s, e) => if s.isEmpty then none else some (String.mk e)
  | none => none

/-- Value of a digit list read in base 10. -/
def digitsVal (cs : List Char) : Nat :=
  cs.foldl (fun a c => a * 10 + (c.toNat - 48)) 0

/-- Model of Rust's unsigned integer `FromStr`: an optional leading '+',
then one or more ASCII digits, value below the type's bound (overflow is a
parse error). -/
def parseNatBounded (bound : Nat) (s : String) : Option Nat :=
  let cs := if s.data.head? = some '+' then s.data.tail else s.data
  if cs.isEmpty then none
  else if cs.all Char.isDigit then
    if digitsVal cs < bound then some (digitsVal cs) else none
  else none

/-- Rust `str::parse::<u32>`. -/
def parseU32 (s : String) : Option Nat := parseNatBounded (2 ^ 32) s

/-- Rust `str::parse::<usize>` (64-bit target). -/
def parseUsize (s : String) : Option Nat := parseNatBounded (2 ^ 64) s

/-- List of archive extensions supported by the tool (src/lib.rs,
`ARCHIVE_EXTS`). -/
def ARCHIVE_EXTS : List String := ["7z", "zip", "rar", "tgz"]

/-- Model of `PathExt::is_archive` (src/lib.rs lines 44-48): true when the
path's extension is contained in `ARCHIVE_EXTS`.  The source compares the
raw extension string against the list without lower-casing it. -/
def is_archive (f : String) : Bool :=
  match extension f with
  | some ext => ARCHIVE_EXTS.contains ext
  | none => false

/-- Model of `PathExt::is_numeric` (src/lib.rs lines 51-54): true when the
path's extension parses as a `u32`. -/
def is_numeric (f : String) : Bool :=
  match extension f with
  | some ext => (parseU32 ext).isSome
  | none => false

/-- Input to the name resolver: the file-name component of the path
(`Path::file_name`, none for e.g. a root path) together with the two
file-system facts the resolver queries (`Path::exists`, `Path::is_dir`). -/
structure PathInput where
  fileName : Option String
  existsOnDisk : Bool
  isDir : Bool

/-- Model of `find_app_name` (src/lib.rs lines 69-106): returns the file
name unchanged for nonexistent paths and directories; for an existing file
strips a numeric extension and then an archive extension, in that order. -/
def find_app_name (p : PathInput) : Option String :=
  match p.fileName with
  | none => none
  | some nameStr =>
    if !p.existsOnDisk then some nameStr
    else if p.isDir then some nameStr
    else
      let name := if is_numeric nameStr then fileStem nameStr else nameStr
      let stripped := if is_archive name then fileStem name else name
      some stripped

/-- Rust `str::split('.')` on a character list: splits at every '.',
keeping empty segments (so an empty input yields one empty segment, as in
Rust). -/
def splitDot : List Char → List (List Char)
  | [] => [[]]
  | c :: rest =>
    let r := splitDot rest
    if c = '.' then [] :: r
    else
      match r with
      | [] => [[c]]
      | h :: t => (c :: h) :: t

/-- Numeric sort key used by `compare_numeric_extension` (src/lib.rs lines
228-245): the path's final extension is split on '.' and the first segment
that parses as a `u32` is its key; none models the source's panicking
`expect` calls (no extension, or no numeric segment). -/
def numericKey (f : String) : Option Nat :=
  match extension f with
  | none => none
  | some ext => (splitDot ext.data).findSome? (fun seg => parseU32 (String.mk seg))

/-- Model of `compare_numeric_extension` (src/lib.rs lines 228-245):
compares two paths by their numeric keys; none models the panic when
either key is missing. -/
def compare_numeric_extension (a b : String) : Option Ordering :=
  match numericKey a, numericKey b with
  | some ka, some kb => some (Ord.compare ka kb)
  | _, _ => none

/-- Boolean "key of a is at most key of b" ordering used to model Rust's
stable `sort_by` with `compare_numeric_extension` (ascending by the
compared `Ordering`). -/
def numericLe (a b : String) : Bool :=
  decide ((numericKey a).getD 0 ≤ (numericKey b).getD 0)

/-- Model of `files.sort_by(|a, b| compare_numeric_extension(a, b))`:
a stable sort ascending by the numeric key.  When any element's key is
missing the comparator panics (every element is compared at least once for
lists of length at least two), modelled as none. -/
def sortByNumeric (files : List String) : Option (List String) :=
  if files.all (fun f => (numericKey f).isSome) then
    some (files.mergeSort numericLe)
  else none

/-- Model of the ordering step of the combiner (src/main.rs lines 171-175,
src/steps.rs lines 121-125): the candidate list is re-sorted numerically
only when its length exceeds 10, otherwise it is kept in the enumeration
order. -/
def orderParts (files : List String) : Option (List String) :=
  if 10 < files.length then sortByNumeric files else some files

/-- Model of the final-extension derivation (src/main.rs lines 149-161,
src/steps.rs lines 80-92): the first candidate's file name is split on
'.', the stem segment is skipped, and the first segment that does not
parse as a `u32` is selected; none models the panicking `expect`. -/
def final_ext_of (f : String) : Option String :=
  (((splitDot f.data).map String.mk).drop 1).find? (fun part => (parseU32 part).isNone)

/-- Model of the output-name derivation of the multi-candidate branch of
`find_final_name` (src/steps.rs lines 77-94, src/main.rs lines 146-163):
candidates are modelled by their file names, so the source's
`files.iter().find_map(|p| p.file_name())` is the head of the list. -/
def find_final_name (appName : String) (files : List String) : Option String :=
  match files with
  | [] => none
  | f :: _ => (final_ext_of f).map (fun ext => appName ++ "." ++ ext)

/-- File system state: a partial map from file names to byte contents
(bytes as naturals). -/
def FS : Type := String → Option (List Nat)

/-- Sets one file's content. -/
def setFile (fs : FS) (n : String) (c : List Nat) : FS :=
  fun m => if m = n then some c else fs m

/-- Result of the creation attempt `File::create_new(output_name)`,
abstracting `io::ErrorKind`: success, the already-exists error, or any
other creation error. -/
inductive CreateResult
  | ok
  | errAlreadyExists
  | errOther

/-- Outcome of the combination step: a successful combine with the
resulting file system, a reuse of the pre-existing output file (the source
returns None and writes nothing), a `process::exit`, or a panic. -/
inductive Outcome
  | done (fs : FS)
  | reused (fs : FS)
  | exited (code : Nat)
  | fatal

/-- Copy loop of the combiner (src/main.rs lines 177-186, src/steps.rs
lines 127-139): opens each part in order and appends its full content to
the accumulated output; none models the panic when a part cannot be
opened. -/
def copyLoop (fs : FS) : List String → List Nat → Option (List Nat)
  | [], acc => some acc
  | f :: rest, acc =>
    match fs f with
    | none => none
    | some c => copyLoop fs rest (acc ++ c)

/-- Reads the contents of a list of files; none when any is missing. -/
def readAll (fs : FS) : List String → Option (List (List Nat))
  | [] => some []
  | f :: rest =>
    match fs f with
    | none => none
    | some c => (readAll fs rest).map (fun cs => c :: cs)

/-- ASCII lower-casing, modelling Rust `str::to_lowercase` on the ASCII
answers compared against "y". -/
def lowerStr (s : String) : String := String.mk (s.data.map Char.toLower)

/-- Model of `combine_files` (src/steps.rs lines 110-163, inlined in
src/main.rs lines 165-205).  The creation attempt's result is an explicit
input; on success the (exclusively created, initially empty) output file
is written with each ordered part's bytes appended in sequence; on the
already-exists error the no-interaction flag or the prompt answer decides
between reusing the existing file unchanged and exiting with code 1; any
other creation error panics. -/
def combine_files (files : List String) (outputName : String) (noInteraction : Bool)
    (promptAnswer : String) (createRes : CreateResult) (fs : FS) : Outcome :=
  match createRes with
  | .ok =>
    let fs1 := setFile fs outputName []
    match orderParts files with
    | none => .fatal
    | some ordered =>
      match copyLoop fs1 ordered [] with
      | none => .fatal
      | some content => .done (setFile fs1 outputName content)
  | .errAlreadyExists =>
    if noInteraction then .reused fs
    else if lowerStr promptAnswer = "y" then .reused fs
    else .exited 1
  | .errOther => .fatal

/-- Model of `prompt_user_for_usize` (src/lib.rs lines 249-263): reads
lines from the given input sequence, retrying while the line does not
parse as a usize or the parsed value exceeds max; none models an
exhausted input sequence (the source would keep prompting). -/
def prompt_user_for_usize (max : Nat) : List String → Option Nat
  | [] => none
  | line :: rest =>
    match parseUsize line with
    | none => prompt_user_for_usize max rest
    | some r => if max < r then prompt_user_for_usize max rest else some r

/-- Boolean test that pat is a leading segment of hay. -/
def leadSegB : List Char → List Char → Bool
  | [], _ => true
  | _ :: _, [] => false
  | p :: ps, h :: hs => p = h && leadSegB ps hs

/-- Boolean test that pat occurs contiguously inside hay, modelling Rust
`str::contains` with a string pattern. -/
def substrB (pat : List Char) : List Char → Bool
  | [] => pat.isEmpty
  | h :: t => leadSegB pat (h :: t) || substrB pat t

/-- Model of `check_name` (src/lib.rs lines 211-219): false when the path
has no file name, otherwise true when any keyword is a substring of the
lossy file name. -/
def check_name (keywords : List String) (fileName : Option String) : Bool :=
  match fileName with
  | none => false
  | some name => keywords.any (fun kw => substrB kw.data name.data)

/-! ## Lemmas about extensions of composite file names -/

lemma dot_data : ("." : String).data = ['.'] := rfl

lemma splitLastDot_of_not_mem (cs : List Char) (h : '.' ∉ cs) : splitLastDot cs = none := by
  induction cs with
  | nil => rfl
  | cons c rest ih =>
    simp only [List.mem_cons, not_or] at h
    have hc : ¬c = '.' := fun hh => h.1 hh.symm
    simp [splitLastDot, ih h.2, hc]

lemma splitLastDot_append (cs ds : List Char) (h : '.' ∉ ds) :
    splitLastDot (cs ++ '.' :: ds) = some (cs, ds) := by
  induction cs with
  | nil => simp [splitLastDot, splitLastDot_of_not_mem ds h]
  | cons c cs ih => simp [splitLastDot, ih]

lemma extension_append (x e : String) (hx : x.data ≠ []) (he : '.' ∉ e.data) :
    extension (x ++ "." ++ e) = some e ∧ fileStem (x ++ "." ++ e) = x := by
  have hdata : (x ++ "." ++ e).data = x.data ++ '.' :: e.data := by
    simp [String.data_append, dot_data]
  have hne : x.data.isEmpty = false := by
    simpa [List.isEmpty_iff] using hx
  constructor
  · simp [extension, hdata, splitLastDot_append _ _ he, hne]
  · simp [fileStem, hdata, splitLastDot_append _ _ he, hne]

lemma parseNatBounded_no_dot {b : Nat} {s : String} {k : Nat}
    (h : parseNatBounded b s = some k) : '.' ∉ s.data := by
  intro hmem
  rcases hs : s.data with _ | ⟨c, rest⟩
  · rw [hs] at hmem
    simp at hmem
  · rw [hs] at hmem
    by_cases hc : c = '+'
    · subst hc
      simp only [parseNatBounded, hs, List.head?_cons, List.tail_cons, if_pos] at h
      rcases List.mem_cons.mp hmem with h1 | h1
      · exact absurd h1 (by decide)
      · by_cases hall : rest.all Char.isDigit
        · exact absurd ((List.all_eq_true.mp hall) _ h1) (by decide)
        · simp [hall] at h
    · have hne : ¬((c :: rest).head? = some '+') := by simp [hc]
      simp only [parseNatBounded, hs, if_neg hne] at h
      by_cases hall : (c :: rest).all Char.isDigit
      · exact absurd ((List.all_eq_true.mp hall) _ hmem) (by decide)
      · simp [hall] at h

lemma archive_cases {a : String} (ha : a ∈ ARCHIVE_EXTS) :
    a = "7z" ∨ a = "zip" ∨ a = "rar" ∨ a = "tgz" := by
  simpa [ARCHIVE_EXTS] using ha

/-- Computation of the name resolver on an existing file whose name has the
split-archive shape: a stem, an allow-listed archive extension, and a
numeric part suffix. -/
lemma find_app_name_strip_strip (c a n : String) (k : Nat) (hc : c.data ≠ [])
    (ha : a ∈ ARCHIVE_EXTS) (hn : parseU32 n = some k) :
    find_app_name ⟨some (c ++ "." ++ a ++ "." ++ n), true, false⟩ = some c := by
  have hadot : '.' ∉ a.data ∧ a.data ≠ [] := by
    rcases archive_cases ha with rfl | rfl | rfl | rfl <;> exact ⟨by decide, by decide⟩
  have hxdata : (c ++ "." ++ a).data ≠ [] := by
    simp [String.data_append, dot_data]
  have hndot : '.' ∉ n.data := parseNatBounded_no_dot hn
  have hext1 := extension_append (c ++ "." ++ a) n hxdata hndot
  have hext2 := extension_append c a hc hadot.1
  have hnum : is_numeric (c ++ "." ++ a ++ "." ++ n) = true := by
    simp [is_numeric, hext1.1, hn]
  have harx : is_archive (c ++ "." ++ a) = true := by
    rcases archive_cases ha with rfl | rfl | rfl | rfl <;>
      simp [is_archive, hext2.1, ARCHIVE_EXTS]
  simp [find_app_name, hnum, hext1.2, harx, hext2.2]

lemma extension_of_no_dot {c : String} (h : '.' ∉ c.data) : extension c = none := by
  simp [extension, splitLastDot_of_not_mem c.data h]

/-! ## Claim theorems: name resolver -/

/-- C5: for every path that exists on disk as a file (not a directory)
whose file name has the form c.a.n with a an allow-listed archive
extension and n parsing as a u32, the name resolver first strips the
numeric extension n and then the archive extension a, in that order,
yielding c (e.g. App.7z.007 resolves to App). -/
theorem find_app_name_strips_numeric_then_archive (c a n : String) (k : Nat)
    (hc : c.data ≠ []) (ha : a ∈ ARCHIVE_EXTS) (hn : parseU32 n = some k)
    (p : PathInput) (hp : p.fileName = some (c ++ "." ++ a ++ "." ++ n))
    (hex : p.existsOnDisk = true) (hd : p.isDir = false) :
    find_app_name p = some c := by
  have : p = ⟨some (c ++ "." ++ a ++ "." ++ n), true, false⟩ := by
    cases p
    simp_all
  rw [this]
  exact find_app_name_strip_strip c a n k hc ha hn

/-- Witness for C5: the existing file App.7z.007 resolves to App. -/
theorem find_app_name_strips_numeric_then_archive_witness :
    ("App" : String).data ≠ [] ∧ "7z" ∈ ARCHIVE_EXTS ∧ parseU32 "007" = some 7 ∧
    find_app_name ⟨some "App.7z.007", true, false⟩ = some "App" :=
  ⟨by decide, by decide, by decide,
    find_app_name_strips_numeric_then_archive "App" "7z" "007" 7 (by decide) (by decide)
      (by decide) ⟨some "App.7z.007", true, false⟩ rfl rfl rfl⟩

/-- C6: for every path that has a file-name component and either does not
exist on disk or exists as a directory, the name resolver returns that
file name unchanged, even when it contains literal dots. -/
theorem find_app_name_keeps_name (p : PathInput) (s : String)
    (hs : p.fileName = some s) (h : p.existsOnDisk = false ∨ p.isDir = true) :
    find_app_name p = some s := by
  rcases p with ⟨fn, ex, dir⟩
  cases hs
  rcases h with h | h
  · cases h
    rfl
  · cases h
    cases ex <;> rfl

/-- Witness for C6: the directory Test.App resolves to Test.App, and the
nonexistent path App.7z resolves to App.7z. -/
theorem find_app_name_keeps_name_witness :
    find_app_name ⟨some "Test.App", true, true⟩ = some "Test.App" ∧
    find_app_name ⟨some "App.7z", false, false⟩ = some "App.7z" :=
  ⟨find_app_name_keeps_name ⟨some "Test.App", true, true⟩ "Test.App" rfl (Or.inr rfl),
    find_app_name_keeps_name ⟨some "App.7z", false, false⟩ "App.7z" rfl (Or.inl rfl)⟩

/-- C8 counterexample: the claimed invariant fails for a nonexistent input
path: App.7z (which does not exist on disk) resolves to the canonical name
App.7z, which still carries an archive-container extension. -/
theorem canonical_name_invariant_cex :
    find_app_name ⟨some "App.7z", false, false⟩ = some "App.7z" ∧
    is_archive "App.7z" = true := by
  constructor
  · rfl
  · decide

/-- C8 amended: the canonical-name invariant holds for input paths that
exist on disk as files and follow the split-archive naming convention
(dot-free stem, allow-listed archive extension, numeric part suffix): the
computed canonical name has neither a numeric extension nor an archive
extension.  For nonexistent paths and directories the resolver returns the
file name unchanged, so such suffixes can survive there. -/
theorem canonical_name_invariant_amended (c a n : String) (k : Nat)
    (hc : c.data ≠ []) (hcd : '.' ∉ c.data) (ha : a ∈ ARCHIVE_EXTS)
    (hn : parseU32 n = some k) (p : PathInput)
    (hp : p.fileName = some (c ++ "." ++ a ++ "." ++ n))
    (hex : p.existsOnDisk = true) (hd : p.isDir = false) :
    ∃ canonical, find_app_name p = some canonical ∧
      is_numeric canonical = false ∧ is_archive canonical = false := by
  have hpp : p = ⟨some (c ++ "." ++ a ++ "." ++ n), true, false⟩ := by
    cases p
    simp_all
  refine ⟨c, ?_, ?_, ?_⟩
  · rw [hpp]
    exact find_app_name_strip_strip c a n k hc ha hn
  · simp [is_numeric, extension_of_no_dot hcd]
  · simp [is_archive, extension_of_no_dot hcd]

/-- Witness for the amended C8: the existing file App.7z.001 yields the
canonical name App, free of numeric and archive extensions. -/
theorem canonical_name_invariant_amended_witness :
    ("App" : String).data ≠ [] ∧ '.' ∉ ("App" : String).data ∧
    ∃ canonical, find_app_name ⟨some "App.7z.001", true, false⟩ = some canonical ∧
      is_numeric canonical = false ∧ is_archive canonical = false :=
  ⟨by decide, by decide,
    canonical_name_invariant_amended "App" "7z" "001" 1 (by decide) (by decide) (by decide)
      (by decide) ⟨some "App.7z.001", true, false⟩ rfl rfl rfl⟩

/-! ## Claim theorems: extension classifier and prompts -/

/-- C7 (code-bug evaluation): the archive classifier of the source never
lower-cases the extension before the allow-list membership test, so
upper- and mixed-case variants of allow-listed extensions are rejected,
although their lower-casings are allow-listed and the repository's own
unit tests (src/tests.rs, test_archive_ext) assert that test.7Z and
test.zIP are classified as archives. -/
theorem is_archive_rejects_uppercase :
    is_archive "test.7Z" = false ∧ is_archive "test.zIP" = false ∧
    is_archive "test.7z" = true ∧ is_archive "test.zip" = true ∧
    lowerStr "7Z" = "7z" ∧ lowerStr "zIP" = "zip" := by decide

/-- C9 (code-bug evaluation): the number-choice prompt only rejects values
above max, so the input 0 is returned although it lies outside [1, max];
the prompt does retry on unparsable and above-max input first. -/
theorem prompt_user_for_usize_accepts_zero :
    prompt_user_for_usize 3 ["0"] = some 0 ∧
    prompt_user_for_usize 3 ["abc", "9", "0"] = some 0 := by decide

/-! ## Claim theorems: combine planner -/

/-- C3: for every candidate collection with more than one element, the
planner splits the first candidate's file name on '.', discards the stem
segment, and selects the first remaining segment that is not numeric
(numeric meaning: parses as a u32, the spec's 4.1 classifier); the output
name is the canonical app name, a dot, and that segment.  When every
remaining segment is numeric the derivation fails (the source panics). -/
theorem find_final_name_spec (app f : String) (rest : List String) (_hmulti : rest ≠ []) :
    (∀ l₁ e l₂, (((splitDot f.data).map String.mk).drop 1) = l₁ ++ e :: l₂ →
        (∀ x ∈ l₁, (parseU32 x).isSome = true) → (parseU32 e).isNone = true →
        find_final_name app (f :: rest) = some (app ++ "." ++ e)) ∧
    ((∀ x ∈ ((splitDot f.data).map String.mk).drop 1, (parseU32 x).isSome = true) →
        find_final_name app (f :: rest) = none) := by
  constructor
  · intro l₁ e l₂ hsplit hnum he
    simp only [find_final_name, final_ext_of, hsplit]
    have h1 : List.find? (fun part => (parseU32 part).isNone) l₁ = none := by
      rw [List.find?_eq_none]
      intro x hx
      rcases Option.isSome_iff_exists.mp (hnum x hx) with ⟨v, hv⟩
      simp [hv]
    rw [List.find?_append, h1,
      @List.find?_cons_of_pos String (fun part => (parseU32 part).isNone) e l₂ he]
    rfl
  · intro hall
    simp only [find_final_name, final_ext_of]
    have h1 : List.find? (fun part => (parseU32 part).isNone)
        (((splitDot f.data).map String.mk).drop 1) = none := by
      rw [List.find?_eq_none]
      intro x hx
      rcases Option.isSome_iff_exists.mp (hall x hx) with ⟨v, hv⟩
      simp [hv]
    rw [h1]
    rfl

/-- Witness for C3: from the candidates App.7z.001 and App.7z.002 the
planner derives the output name App.7z. -/
theorem find_final_name_spec_witness :
    (["App.7z.002"] : List String) ≠ [] ∧
    ((splitDot ("App.7z.001" : String).data).map String.mk).drop 1 = ["7z", "001"] ∧
    (parseU32 "7z").isNone = true ∧
    find_final_name "App" ["App.7z.001", "App.7z.002"] = some "App.7z" :=
  ⟨by decide, by decide, by decide,
    (find_final_name_spec "App" "App.7z.001" ["App.7z.002"] (by decide)).1
      [] "7z" ["001"] (by decide) (by decide) (by decide)⟩

/-! ## Claim theorems: part orderer -/

/-- C2: the part orderer re-sorts only when the candidate count exceeds
10 (below that the enumeration order is kept unchanged), and when every
candidate's final extension contains a segment parsing as a u32 the
result is a permutation of the candidates in ascending order of that
integer value. -/
theorem orderParts_spec (files : List String) :
    (files.length ≤ 10 → orderParts files = some files) ∧
    (10 < files.length → files.all (fun f => (numericKey f).isSome) = true →
      ∃ ordered, orderParts files = some ordered ∧ ordered.Perm files ∧
        ordered.Pairwise (fun a b => (numericKey a).getD 0 ≤ (numericKey b).getD 0)) := by
  constructor
  · intro h
    simp [orderParts, Nat.not_lt.mpr h]
  · intro h hall
    have htrans : ∀ (a b c : String), numericLe a b = true → numericLe b c = true →
        numericLe a c = true := by
      intro a b c hab hbc
      simp only [numericLe, decide_eq_true_eq] at hab hbc ⊢
      omega
    have htotal : ∀ (a b : String), (numericLe a b || numericLe b a) = true := by
      intro a b
      simp only [numericLe, Bool.or_eq_true, decide_eq_true_eq]
      omega
    refine ⟨files.mergeSort numericLe, ?_, List.mergeSort_perm files numericLe, ?_⟩
    · simp [orderParts, h, sortByNumeric, hall]
    · exact (List.sorted_mergeSort htrans htotal files).imp
        (fun hab => by simpa [numericLe, decide_eq_true_eq] using hab)

/-- Example candidate list with 11 parts (enough to trigger the re-sort)
whose lexicographic order differs from numeric order. -/
def partsExample : List String :=
  ["x.7z.001", "x.7z.011", "x.7z.002", "x.7z.003", "x.7z.004", "x.7z.005",
    "x.7z.006", "x.7z.007", "x.7z.008", "x.7z.009", "x.7z.010"]

/-- Witness for C2: eleven parts including 001, 011, 002 get re-sorted
into ascending numeric order. -/
theorem orderParts_spec_witness :
    10 < partsExample.length ∧
    partsExample.all (fun f => (numericKey f).isSome) = true ∧
    ∃ ordered, orderParts partsExample = some ordered ∧ ordered.Perm partsExample ∧
      ordered.Pairwise (fun a b => (numericKey a).getD 0 ≤ (numericKey b).getD 0) :=
  ⟨by decide, by decide, (orderParts_spec partsExample).2 (by decide) (by decide)⟩

/-! ## Claim theorems: keyword matching -/

lemma leadSegB_iff (p h : List Char) : leadSegB p h = true ↔ ∃ t, h = p ++ t := by
  induction p generalizing h with
  | nil => simp [leadSegB]
  | cons c ps ih =>
    cases h with
    | nil => simp [leadSegB]
    | cons d hs =>
      simp only [leadSegB, Bool.and_eq_true, decide_eq_true_eq, ih, List.cons_append,
        List.cons.injEq, exists_and_left]
      exact ⟨fun ⟨h1, h2⟩ => ⟨h1.symm, h2⟩, fun ⟨h1, h2⟩ => ⟨h1.symm, h2⟩⟩

lemma substrB_iff (p h : List Char) : substrB p h = true ↔ ∃ l₁ l₂, h = l₁ ++ p ++ l₂ := by
  induction h with
  | nil =>
    constructor
    · intro hp
      have hp0 : p = [] := List.isEmpty_iff.mp (by simpa [substrB] using hp)
      exact ⟨[], [], by simp [hp0]⟩
    · rintro ⟨l₁, l₂, hh⟩
      have hp0 : p = [] := by
        rcases List.append_eq_nil.mp hh.symm with ⟨h1, _⟩
        exact (List.append_eq_nil.mp h1).2
      simp [substrB, hp0]
  | cons c t ih =>
    constructor
    · intro hs
      simp only [substrB, Bool.or_eq_true] at hs
      rcases hs with hs | hs
      · rcases (leadSegB_iff p (c :: t)).mp hs with ⟨tl, htl⟩
        exact ⟨[], tl, by simp [htl]⟩
      · rcases ih.mp hs with ⟨l₁, l₂, rfl⟩
        exact ⟨c :: l₁, l₂, by simp⟩
    · rintro ⟨l₁, l₂, hh⟩
      simp only [substrB, Bool.or_eq_true]
      cases l₁ with
      | nil =>
        exact Or.inl ((leadSegB_iff p (c :: t)).mpr ⟨l₂, by simpa using hh⟩)
      | cons d l₁ =>
        refine Or.inr (ih.mpr ⟨l₁, l₂, ?_⟩)
        simp only [List.cons_append, List.cons.injEq] at hh
        exact hh.2

/-- C10: check_name is false for paths without a file-name component, and
otherwise true exactly when some keyword occurs contiguously inside the
file name; in particular an empty-string keyword (as produced by
splitting an app name with consecutive spaces on ' ') matches every file
name. -/
theorem check_name_spec (keywords : List String) (s : String) :
    check_name keywords none = false ∧
    (check_name keywords (some s) = true ↔
      ∃ kw ∈ keywords, ∃ l₁ l₂, s.data = l₁ ++ kw.data ++ l₂) ∧
    ("" ∈ keywords → check_name keywords (some s) = true) := by
  refine ⟨rfl, ?_, ?_⟩
  · simp only [check_name, List.any_eq_true]
    constructor
    · rintro ⟨kw, hkw, hsub⟩
      exact ⟨kw, hkw, (substrB_iff kw.data s.data).mp hsub⟩
    · rintro ⟨kw, hkw, l₁, l₂, hdecomp⟩
      exact ⟨kw, hkw, (substrB_iff kw.data s.data).mpr ⟨l₁, l₂, hdecomp⟩⟩
  · intro hmem
    simp only [check_name, List.any_eq_true]
    exact ⟨"", hmem, (substrB_iff ("" : String).data s.data).mpr ⟨[], s.data, by simp⟩⟩

/-- Witness for C10: an empty keyword in the collection makes check_name
accept an arbitrary file name. -/
theorem check_name_spec_witness :
    ("" ∈ (["ab", ""] : List String)) ∧ check_name ["ab", ""] (some "xyz") = true :=
  ⟨by decide, (check_name_spec ["ab", ""] "xyz").2.2 (by decide)⟩

/-! ## Claim theorems: combiner -/

lemma copyLoop_append (fs : FS) (files : List String) :
    ∀ acc, copyLoop fs files acc = (readAll fs files).map (fun cs => acc ++ cs.flatten) := by
  induction files with
  | nil =>
    intro acc
    simp [copyLoop, readAll]
  | cons f rest ih =>
    intro acc
    cases hf : fs f with
    | none => simp [copyLoop, readAll, hf]
    | some c =>
      simp only [copyLoop, readAll, hf, ih (acc ++ c)]
      cases readAll fs rest <;> simp

lemma readAll_setFile (fs : FS) (out : String) (c0 : List Nat) (files : List String)
    (h : out ∉ files) : readAll (setFile fs out c0) files = readAll fs files := by
  induction files with
  | nil => rfl
  | cons f rest ih =>
    simp only [List.mem_cons, not_or] at h
    have hf : setFile fs out c0 f = fs f := by
      have hne : f ≠ out := fun hh => h.1 hh.symm
      simp [setFile, hne]
    simp only [readAll, hf, ih h.2]

/-- C1: when the exclusive creation of the output file succeeds, the
combiner writes exactly the concatenation of the parts' byte contents in
planned order into the output file and touches no other file. -/
theorem combine_files_concat (files ordered : List String) (out ans : String) (noInt : Bool)
    (fs : FS) (contents : List (List Nat))
    (hord : orderParts files = some ordered)
    (hout : out ∉ ordered)
    (hread : readAll fs ordered = some contents) :
    ∃ fs2, combine_files files out noInt ans .ok fs = .done fs2 ∧
      fs2 out = some contents.flatten ∧ ∀ m, m ≠ out → fs2 m = fs m := by
  have h1 : readAll (setFile fs out []) ordered = some contents := by
    rw [readAll_setFile fs out [] ordered hout]
    exact hread
  have h2 : copyLoop (setFile fs out []) ordered [] = some contents.flatten := by
    rw [copyLoop_append, h1]
    simp
  refine ⟨setFile (setFile fs out []) out contents.flatten, ?_, ?_, ?_⟩
  · simp only [combine_files, hord, h2]
  · simp [setFile]
  · intro m hm
    simp [setFile, hm]

/-- Concrete two-part file system used by the combiner witnesses. -/
def sampleFS : FS := fun n =>
  if n = "a.7z.001" then some [1, 2] else if n = "a.7z.002" then some [3, 4] else none

/-- Witness for C1: combining two parts with contents [1, 2] and [3, 4]
produces the output file [1, 2, 3, 4]. -/
theorem combine_files_concat_witness :
    orderParts ["a.7z.001", "a.7z.002"] = some ["a.7z.001", "a.7z.002"] ∧
    ("a.7z" ∉ (["a.7z.001", "a.7z.002"] : List String)) ∧
    readAll sampleFS ["a.7z.001", "a.7z.002"] = some [[1, 2], [3, 4]] ∧
    ∃ fs2, combine_files ["a.7z.001", "a.7z.002"] "a.7z" true "" .ok sampleFS = .done fs2 ∧
      fs2 "a.7z" = some ([[1, 2], [3, 4]] : List (List Nat)).flatten ∧
      ∀ m, m ≠ "a.7z" → fs2 m = sampleFS m :=
  ⟨by decide, by decide, by decide,
    combine_files_concat ["a.7z.001", "a.7z.002"] ["a.7z.001", "a.7z.002"] "a.7z" "" true
      sampleFS [[1, 2], [3, 4]] (by decide) (by decide) (by decide)⟩

/-- C4: creation of the output file is exclusive; when the output name
already exists the no-interaction mode reuses the existing file with its
bytes unchanged and the combination step writes nothing, declining the
interactive reuse prompt exits with code 1, and any creation failure
other than already-exists is fatal (a panic), never retried. -/
theorem combine_files_already_exists (files : List String) (out ans : String) (fs : FS)
    (c : List Nat) (hex : fs out = some c) :
    (combine_files files out true ans .errAlreadyExists fs = .reused fs ∧ fs out = some c) ∧
    (lowerStr ans ≠ "y" →
      combine_files files out false ans .errAlreadyExists fs = .exited 1) ∧
    (∀ noInt : Bool, combine_files files out noInt ans .errOther fs = .fatal) := by
  refine ⟨⟨rfl, hex⟩, ?_, fun noInt => rfl⟩
  intro hne
  simp [combine_files, hne]

/-- Concrete one-file file system holding a pre-existing combined file. -/
def sampleFS2 : FS := fun n => if n = "App.7z" then some [7] else none

/-- Witness for C4: with App.7z pre-existing, no-interaction reuses it
unchanged, a declined prompt exits with code 1, and another creation
error is fatal. -/
theorem combine_files_already_exists_witness :
    sampleFS2 "App.7z" = some [7] ∧
    lowerStr "N" ≠ "y" ∧
    (combine_files ["p"] "App.7z" true "N" .errAlreadyExists sampleFS2 = .reused sampleFS2 ∧
      sampleFS2 "App.7z" = some [7]) ∧
    combine_files ["p"] "App.7z" false "N" .errAlreadyExists sampleFS2 = .exited 1 ∧
    combine_files ["p"] "App.7z" false "N" .errOther sampleFS2 = .fatal :=
  ⟨by decide, by decide,
    (combine_files_already_exists ["p"] "App.7z" "N" sampleFS2 [7] (by decide)).1,
    (combine_files_already_exists ["p"] "App.7z" "N" sampleFS2 [7] (by decide)).2.1 (by decide),
    (combine_files_already_exists ["p"] "App.7z" "N" sampleFS2 [7] (by decide)).2.2 false⟩

end Partsinstall
